import Mathlib

/-!
Shallow embedding of `sync_media.py`.

Bytes are modelled as lists of `Nat` (each byte < 256 where it matters),
Python `str` as Lean `String`.  The embedding covers:

* the constant `HEXDIGIT` and Python `bytes.hex`;
* the codec `iter_mth` (header check plus the byte-range iteration
  `for i in range(6, len(data), 20): yield data[i:i+20].hex()`),
  modelled as a function returning `Except` (the generator either raises
  before yielding anything or yields the whole list of hash strings);
* the reconciliation loop of `main` (lines 77-98): mutable `list_files`,
  `found_count`, `download_count`, and the downloads actually performed;
* the deletion step (lines 100-108) with its name-shape filter;
* the final `index.mth` write (lines 110-125), with SHA-1 as an abstract
  black-box function parameter.
-/

namespace SyncMedia

/-- The constant `HEXDIGIT = "0123456789abcdef"` from the source. -/
def HEXDIGIT : List Char := "0123456789abcdef".data

/-- Lowercase hex digit of a nibble, as Python `bytes.hex` produces. -/
def hexChar (n : Nat) : Char := HEXDIGIT.getD n '0'

/-- The two lowercase hex characters of one byte. -/
def byteHex (b : Nat) : List Char := [hexChar (b / 16), hexChar (b % 16)]

/-- Python `bytes.hex`: the lowercase hex string of a byte string. -/
def bytesHex (bs : List Nat) : String := ⟨(bs.map byteHex).flatten⟩

/-- The six header bytes `b"MTHS\x00\x01"` compared on line 52. -/
def MTH_HEADER : List Nat := [77, 84, 72, 83, 0, 1]

/-- Fuel-driven version of the yield loop of `iter_mth`: starting at the
bytes after the header, repeatedly yield `data[i:i+20].hex()` and advance
by 20 while bytes remain.  The fuel only forces termination; it is always
called with at least `l.length` fuel, which is plenty because every step
consumes at least one byte. -/
def iterChunksF : Nat → List Nat → List String
  | 0, _ => []
  | _ + 1, [] => []
  | fuel + 1, b :: rest => bytesHex ((b :: rest).take 20) :: iterChunksF fuel ((b :: rest).drop 20)

/-- The yield loop of `iter_mth` on the bytes after the 6-byte header:
one string per started 20-byte chunk, in order. -/
def iterChunks (l : List Nat) : List String := iterChunksF l.length l

/-- `iter_mth` (lines 52-55): raise unless the first six bytes are the
exact header, then yield the hex of every 20-byte slice starting at
offsets 6, 26, 46, ... that are below the length of the input. -/
def iter_mth (data : List Nat) : Except String (List String) :=
  if data.take 6 = MTH_HEADER then Except.ok (iterChunks (data.drop 6))
  else Except.error "Invalid index.mth"

/-- Mutable state of the loop of lines 77-98: `list_files` (initially the
directory listing, a list of distinct names), the two counters, and the
downloads performed so far, in order. -/
structure SyncState where
  listFiles : List String
  foundCount : Nat
  downloadCount : Nat
  toDownload : List String
deriving Repr, DecidableEq

/-- One iteration of the loop body (lines 80-98) on hash `h`: count it,
remove a matching name from `list_files`, and download unless the hash
was present locally and `redownload` is off. -/
def processHash (redownload : Bool) (s : SyncState) (h : String) : SyncState :=
  let s1 : SyncState := { s with foundCount := s.foundCount + 1 }
  if h ∈ s1.listFiles then
    let s2 : SyncState := { s1 with listFiles := s1.listFiles.erase h }
    if redownload then
      { s2 with downloadCount := s2.downloadCount + 1, toDownload := s2.toDownload ++ [h] }
    else s2
  else
    { s1 with downloadCount := s1.downloadCount + 1, toDownload := s1.toDownload ++ [h] }

/-- The whole loop over the decoded remote hash sequence. -/
def processAll (redownload : Bool) (s : SyncState) (hs : List String) : SyncState :=
  hs.foldl (processHash redownload) s

/-- The loop state at the start of the run (lines 67, 77-78). -/
def initState (localNames : List String) : SyncState := ⟨localNames, 0, 0, []⟩

/-- A directory entry of the destination: a name plus whether it is a
regular file (as reported by `entry.is_file()`); `os.listdir` and
`os.scandir` also return directories. -/
structure DirEntry where
  name : String
  isFile : Bool
deriving Repr, DecidableEq

/-- The name-shape test of line 104 (and the name part of line 116): the
entry survives iff its name has length exactly 40 and contains at least
one character of `HEXDIGIT`. -/
def hexNameFilter (n : String) : Bool :=
  n.length == 40 && n.data.any (fun c => decide (c ∈ HEXDIGIT))

/-- The filter of the regeneration loop (line 116): name shape as in
`hexNameFilter` plus `entry.is_file()`. -/
def genEntryFilter (e : DirEntry) : Bool :=
  hexNameFilter e.name && e.isFile

/-- Whether some entry of the directory listing with this name is a
directory (so that `os.remove` on it would raise). -/
def isDirectoryNamed (entries : List DirEntry) (n : String) : Bool :=
  entries.any (fun e => e.name == n && !e.isFile)

/-- The reconciliation outcome of one run: the counters reported on line
127, the downloads performed, the deletions performed (lines 102-108) and
the names left unmatched in `list_files` after the loop. -/
structure Plan where
  foundCount : Nat
  downloadCount : Nat
  deleteCount : Nat
  toDownload : List String
  toDelete : List String
  remaining : List String
deriving Repr, DecidableEq

/-- One run of the reconciliation and deletion steps of `main`, from the
decoded remote hash sequence and the initial directory listing. -/
def runPlan (delete redownload : Bool) (remote : List String) (listFiles : List String) : Plan :=
  let s := processAll redownload (initState listFiles) remote
  let td := if delete then s.listFiles.filter hexNameFilter else []
  ⟨s.foundCount, s.downloadCount, td.length, s.toDownload, td, s.listFiles⟩

/-- The bytes written to `destination/index.mth` at the end of the run
(lines 110-125): in generate mode the header followed by the SHA-1 digest
of every surviving entry's content, otherwise the fetched bytes verbatim.
`sha1` is the hashing primitive as a black box and `contents` maps an
entry name to the bytes of its file. -/
def writtenIndex (generate : Bool) (sha1 : List Nat → List Nat)
    (entries : List DirEntry) (contents : String → List Nat)
    (mthBytes : List Nat) : List Nat :=
  if generate then
    MTH_HEADER ++ ((entries.filter genEntryFilter).map (fun e => sha1 (contents e.name))).flatten
  else mthBytes

/-- A 40-character hex-looking name, used as a concrete directory name. -/
def dirName : String := ⟨List.replicate 40 'a'⟩

/-! ### Lemmas about the codec -/

theorem iterChunksF_congr (f₁ : Nat) : ∀ (f₂ : Nat) (l : List Nat),
    l.length ≤ f₁ → l.length ≤ f₂ → iterChunksF f₁ l = iterChunksF f₂ l := by
  induction f₁ with
  | zero =>
    intro f₂ l h1 _
    have : l = [] := List.length_eq_zero.mp (Nat.le_zero.mp h1)
    subst this
    cases f₂ <;> rfl
  | succ f ih =>
    intro f₂ l h1 h2
    cases l with
    | nil => cases f₂ <;> rfl
    | cons b rest =>
      cases f₂ with
      | zero => exact absurd h2 (by simp)
      | succ g =>
        simp only [iterChunksF]
        refine congrArg _ (ih g ((b :: rest).drop 20) ?_ ?_) <;>
          simp only [List.length_drop, List.length_cons] at * <;> omega

theorem iterChunks_nil : iterChunks [] = [] := rfl

theorem iterChunks_cons (l : List Nat) (h : l ≠ []) :
    iterChunks l = bytesHex (l.take 20) :: iterChunks (l.drop 20) := by
  cases l with
  | nil => exact absurd rfl h
  | cons b rest =>
    show iterChunksF (rest.length + 1) (b :: rest) = _
    simp only [iterChunksF, iterChunks]
    refine congrArg _ (iterChunksF_congr _ _ _ ?_ ?_) <;>
      simp only [List.length_drop, List.length_cons] <;> omega

theorem bytesHex_data (bs : List Nat) : (bytesHex bs).data = (bs.map byteHex).flatten := rfl

theorem bytesHex_length (bs : List Nat) : (bytesHex bs).length = 2 * bs.length := by
  show ((bs.map byteHex).flatten).length = 2 * bs.length
  induction bs with
  | nil => rfl
  | cons b rest ih =>
    simp only [List.map_cons, List.flatten_cons, List.length_append, ih, byteHex,
      List.length_cons, List.length_nil]
    omega

theorem hexChar_mem (n : Nat) (h : n < 16) : hexChar n ∈ HEXDIGIT := by
  interval_cases n <;> decide

theorem byteHex_mem (b : Nat) (hb : b < 256) : ∀ c ∈ byteHex b, c ∈ HEXDIGIT := by
  intro c hc
  simp only [byteHex, List.mem_cons, List.not_mem_nil, or_false] at hc
  rcases hc with h | h <;> subst h
  · exact hexChar_mem _ (by omega)
  · exact hexChar_mem _ (Nat.mod_lt _ (by omega))

theorem bytesHex_mem (bs : List Nat) (hb : ∀ b ∈ bs, b < 256) :
    ∀ c ∈ (bytesHex bs).data, c ∈ HEXDIGIT := by
  intro c hc
  rw [bytesHex_data, List.mem_flatten] at hc
  obtain ⟨l, hl, hcl⟩ := hc
  rw [List.mem_map] at hl
  obtain ⟨b, hbs, rfl⟩ := hl
  exact byteHex_mem b (hb b hbs) c hcl

/-- Appending one full 20-byte group in front peels off one chunk. -/
theorem iterChunks_group (g rest : List Nat) (hg : g.length = 20) :
    iterChunks (g ++ rest) = bytesHex g :: iterChunks rest := by
  have hne : g ++ rest ≠ [] := by
    intro h
    have := congrArg List.length h
    simp [hg] at this
  rw [iterChunks_cons _ hne]
  have ht : (g ++ rest).take 20 = g := by
    rw [← hg, List.take_left]
  have hd : (g ++ rest).drop 20 = rest := by
    rw [← hg, List.drop_left]
  rw [ht, hd]

/-- The yield loop over a concatenation of full 20-byte groups followed by
anything: the groups come out one by one in order. -/
theorem iterChunks_join (gs : List (List Nat)) (t : List Nat)
    (hg : ∀ g ∈ gs, g.length = 20) :
    iterChunks (gs.flatten ++ t) = gs.map bytesHex ++ iterChunks t := by
  induction gs with
  | nil => simp
  | cons g rest ih =>
    have h20 : g.length = 20 := hg g (by simp)
    simp only [List.flatten_cons, List.map_cons, List.append_assoc]
    rw [iterChunks_group g _ h20, ih (fun x hx => hg x (by simp [hx]))]
    rfl

theorem iterChunks_short (t : List Nat) (h1 : t ≠ []) (h2 : t.length < 20) :
    iterChunks t = [bytesHex t] := by
  rw [iterChunks_cons t h1, List.take_of_length_le (by omega),
    List.drop_eq_nil_of_le (by omega), iterChunks_nil]

theorem MTH_HEADER_length : MTH_HEADER.length = 6 := rfl

theorem iter_mth_header (body : List Nat) :
    iter_mth (MTH_HEADER ++ body) = Except.ok (iterChunks body) := by
  have ht : (MTH_HEADER ++ body).take 6 = MTH_HEADER := by
    rw [show (6 : Nat) = MTH_HEADER.length from rfl, List.take_left]
  have hd : (MTH_HEADER ++ body).drop 6 = body := by
    rw [show (6 : Nat) = MTH_HEADER.length from rfl, List.drop_left]
  rw [iter_mth, if_pos ht, hd]

/-- The length of a concatenation of blocks of one common length. -/
theorem flatten_const_length (n : Nat) (gs : List (List Nat))
    (hg : ∀ g ∈ gs, g.length = n) : gs.flatten.length = n * gs.length := by
  induction gs with
  | nil => simp
  | cons g rest ih =>
    have h1 : g.length = n := hg g (by simp)
    simp only [List.flatten_cons, List.length_append, List.length_cons,
      ih (fun x hx => hg x (by simp [hx])), h1]
    ring

theorem hexNameFilter_iff (n : String) :
    hexNameFilter n = true ↔ n.length = 40 ∧ ∃ c ∈ n.data, c ∈ HEXDIGIT := by
  simp [hexNameFilter, List.any_eq_true]

/-! ### Lemmas about one loop iteration and the whole loop -/

theorem processHash_mem_ff (s : SyncState) (h : String) (hm : h ∈ s.listFiles) :
    processHash false s h =
      ⟨s.listFiles.erase h, s.foundCount + 1, s.downloadCount, s.toDownload⟩ := by
  simp [processHash, hm]

theorem processHash_mem_tt (s : SyncState) (h : String) (hm : h ∈ s.listFiles) :
    processHash true s h =
      ⟨s.listFiles.erase h, s.foundCount + 1, s.downloadCount + 1, s.toDownload ++ [h]⟩ := by
  simp [processHash, hm]

theorem processHash_not_mem (r : Bool) (s : SyncState) (h : String) (hm : h ∉ s.listFiles) :
    processHash r s h =
      ⟨s.listFiles, s.foundCount + 1, s.downloadCount + 1, s.toDownload ++ [h]⟩ := by
  simp [processHash, hm]

theorem processAll_nil (r : Bool) (s : SyncState) : processAll r s [] = s := rfl

theorem processAll_cons (r : Bool) (s : SyncState) (h : String) (hs : List String) :
    processAll r s (h :: hs) = processAll r (processHash r s h) hs := rfl

theorem processAll_append (r : Bool) (s : SyncState) (hs₁ hs₂ : List String) :
    processAll r s (hs₁ ++ hs₂) = processAll r (processAll r s hs₁) hs₂ :=
  List.foldl_append _ _ _ _

theorem processHash_listFiles_sublist (r : Bool) (s : SyncState) (h : String) :
    (processHash r s h).listFiles.Sublist s.listFiles := by
  by_cases hm : h ∈ s.listFiles
  · cases r
    · rw [processHash_mem_ff s h hm]; exact s.listFiles.erase_sublist h
    · rw [processHash_mem_tt s h hm]; exact s.listFiles.erase_sublist h
  · rw [processHash_not_mem r s h hm]

theorem processAll_listFiles_sublist (r : Bool) (hs : List String) :
    ∀ s : SyncState, (processAll r s hs).listFiles.Sublist s.listFiles := by
  induction hs with
  | nil => intro s; exact List.Sublist.refl _
  | cons h rest ih =>
    intro s
    rw [processAll_cons]
    exact (ih (processHash r s h)).trans (processHash_listFiles_sublist r s h)

theorem processAll_foundCount (r : Bool) (hs : List String) :
    ∀ s : SyncState, (processAll r s hs).foundCount = s.foundCount + hs.length := by
  induction hs with
  | nil => intro s; rfl
  | cons h rest ih =>
    intro s
    rw [processAll_cons, ih]
    have : (processHash r s h).foundCount = s.foundCount + 1 := by
      by_cases hm : h ∈ s.listFiles
      · cases r
        · rw [processHash_mem_ff s h hm]
        · rw [processHash_mem_tt s h hm]
      · rw [processHash_not_mem r s h hm]
    rw [this, List.length_cons]
    omega

theorem processAll_downloadCount (r : Bool) (hs : List String) :
    ∀ s : SyncState,
      (processAll r s hs).downloadCount + s.toDownload.length =
        (processAll r s hs).toDownload.length + s.downloadCount := by
  induction hs with
  | nil => intro s; rw [processAll_nil]; omega
  | cons h rest ih =>
    intro s
    rw [processAll_cons]
    have step : (processHash r s h).downloadCount + s.toDownload.length =
        (processHash r s h).toDownload.length + s.downloadCount := by
      by_cases hm : h ∈ s.listFiles
      · cases r
        · rw [processHash_mem_ff s h hm]; simp; omega
        · rw [processHash_mem_tt s h hm]; simp; omega
      · rw [processHash_not_mem r s h hm]; simp; omega
    have := ih (processHash r s h)
    omega

theorem processAll_toDownload_subset (r : Bool) (hs : List String) :
    ∀ (s : SyncState) (x : String), x ∈ (processAll r s hs).toDownload →
      x ∈ s.toDownload ∨ x ∈ hs := by
  induction hs with
  | nil => intro s x hx; exact Or.inl hx
  | cons h rest ih =>
    intro s x hx
    rw [processAll_cons] at hx
    rcases ih (processHash r s h) x hx with h1 | h1
    · have : x ∈ s.toDownload ++ [h] → x ∈ s.toDownload ∨ x ∈ h :: rest := by
        intro hx2
        rcases List.mem_append.mp hx2 with h2 | h2
        · exact Or.inl h2
        · simp at h2; subst h2; exact Or.inr (by simp)
      by_cases hm : h ∈ s.listFiles
      · cases r
        · rw [processHash_mem_ff s h hm] at h1; exact Or.inl h1
        · rw [processHash_mem_tt s h hm] at h1; exact this h1
      · rw [processHash_not_mem r s h hm] at h1; exact this h1
    · exact Or.inr (by simp [h1])

/-- The loop keeps `list_files` duplicate-free and keeps every hash ever
scheduled for download out of `list_files`: a scheduled hash was either
absent, or present but then erased from the duplicate-free list. -/
theorem processAll_inv (r : Bool) (hs : List String) :
    ∀ s : SyncState, s.listFiles.Nodup → (∀ x ∈ s.toDownload, x ∉ s.listFiles) →
      (processAll r s hs).listFiles.Nodup ∧
        ∀ x ∈ (processAll r s hs).toDownload, x ∉ (processAll r s hs).listFiles := by
  induction hs with
  | nil => intro s h1 h2; exact ⟨h1, h2⟩
  | cons h rest ih =>
    intro s h1 h2
    rw [processAll_cons]
    have key : (processHash r s h).listFiles.Nodup ∧
        ∀ x ∈ (processHash r s h).toDownload, x ∉ (processHash r s h).listFiles := by
      by_cases hm : h ∈ s.listFiles
      · have hnd : (s.listFiles.erase h).Nodup := h1.erase h
        have hsub : ∀ x ∈ s.toDownload, x ∉ s.listFiles.erase h := fun x hx hmem =>
          h2 x hx ((s.listFiles.erase_sublist h).mem hmem)
        cases r
        · rw [processHash_mem_ff s h hm]
          exact ⟨hnd, hsub⟩
        · rw [processHash_mem_tt s h hm]
          refine ⟨hnd, fun x hx => ?_⟩
          rcases List.mem_append.mp hx with hx1 | hx1
          · exact hsub x hx1
          · simp at hx1; subst hx1
            intro hmem
            exact ((h1.mem_erase_iff).mp hmem).1 rfl
      · rw [processHash_not_mem r s h hm]
        refine ⟨h1, fun x hx => ?_⟩
        rcases List.mem_append.mp hx with hx1 | hx1
        · exact h2 x hx1
        · simp at hx1; subst hx1; exact hm
    exact ih (processHash r s h) key.1 key.2

/-- A hash that never occurs in the processed segment is untouched: its
membership in `list_files` is unchanged and it is scheduled no further
time. -/
theorem processAll_untouched (r : Bool) (hs : List String) (h0 : String) :
    ∀ s : SyncState, h0 ∉ hs →
      ((h0 ∈ (processAll r s hs).listFiles) ↔ h0 ∈ s.listFiles) ∧
        (processAll r s hs).toDownload.count h0 = s.toDownload.count h0 := by
  induction hs with
  | nil => intro s _; exact ⟨Iff.rfl, rfl⟩
  | cons h rest ih =>
    intro s hn
    have hne : h0 ≠ h := fun he => hn (he ▸ List.mem_cons_self h rest)
    have hrest : h0 ∉ rest := fun hr => hn (List.mem_cons_of_mem h hr)
    rw [processAll_cons]
    obtain ⟨ih1, ih2⟩ := ih (processHash r s h) hrest
    have hmem : (h0 ∈ (processHash r s h).listFiles) ↔ h0 ∈ s.listFiles := by
      by_cases hm : h ∈ s.listFiles
      · cases r
        · rw [processHash_mem_ff s h hm]
          exact List.mem_erase_of_ne hne
        · rw [processHash_mem_tt s h hm]
          exact List.mem_erase_of_ne hne
      · rw [processHash_not_mem r s h hm]
    have hcnt : (processHash r s h).toDownload.count h0 = s.toDownload.count h0 := by
      have happ : (s.toDownload ++ [h]).count h0 = s.toDownload.count h0 := by
        rw [List.count_append, List.count_singleton']
        simp [Ne.symm hne]
      by_cases hm : h ∈ s.listFiles
      · cases r
        · rw [processHash_mem_ff s h hm]
        · rw [processHash_mem_tt s h hm]; exact happ
      · rw [processHash_not_mem r s h hm]; exact happ
    exact ⟨ih1.trans hmem, ih2.trans hcnt⟩

/-! ### Projections of `runPlan` -/

theorem runPlan_foundCount (d r : Bool) (remote l : List String) :
    (runPlan d r remote l).foundCount = (processAll r (initState l) remote).foundCount := rfl

theorem runPlan_downloadCount (d r : Bool) (remote l : List String) :
    (runPlan d r remote l).downloadCount = (processAll r (initState l) remote).downloadCount := rfl

theorem runPlan_toDownload (d r : Bool) (remote l : List String) :
    (runPlan d r remote l).toDownload = (processAll r (initState l) remote).toDownload := rfl

theorem runPlan_remaining (d r : Bool) (remote l : List String) :
    (runPlan d r remote l).remaining = (processAll r (initState l) remote).listFiles := rfl

theorem runPlan_toDelete (d r : Bool) (remote l : List String) :
    (runPlan d r remote l).toDelete =
      if d then (processAll r (initState l) remote).listFiles.filter hexNameFilter
      else [] := rfl

theorem runPlan_deleteCount (d r : Bool) (remote l : List String) :
    (runPlan d r remote l).deleteCount = (runPlan d r remote l).toDelete.length := rfl

/-! ### The claims -/

/-- C1 counterexample: on the valid header followed by one extra byte
(`N = 0`, `k = 1`), `iter_mth` does not yield the empty hash list the
claim demands; it yields one extra, shorter hash string, the two hex
characters of the trailing byte.  The byte-range loop
`for i in range(6, len(data), 20)` starts a chunk at every offset below
the length, so a short trailing fragment is yielded, not ignored. -/
theorem c1Counterexample :
    iter_mth (MTH_HEADER ++ [171]) = Except.ok ["ab"] ∧
      ("ab" : String).length ≠ 40 ∧ (["ab"] : List String).length ≠ 0 :=
  ⟨rfl, by decide, by decide⟩

/-- C1 (amended): `iter_mth` on the valid 6-byte header followed by
`20*N + k` bytes with `0 < k < 20` raises no error and yields `N + 1`
hash strings: the lowercase hex of each complete 20-byte group, in
order, followed by one extra shorter string, the lowercase hex of the
`k` trailing bytes (their hex has length `2*k < 40`). -/
theorem c1_trailing_fragment (groups : List (List Nat)) (tail : List Nat)
    (hg : ∀ g ∈ groups, g.length = 20) (ht1 : tail ≠ []) (ht2 : tail.length < 20) :
    iter_mth (MTH_HEADER ++ (groups.flatten ++ tail)) =
      Except.ok (groups.map bytesHex ++ [bytesHex tail]) ∧
      (bytesHex tail).length < 40 := by
  constructor
  · rw [iter_mth_header, iterChunks_join groups tail hg, iterChunks_short tail ht1 ht2]
  · rw [bytesHex_length]; omega

/-- Witness for C1 (amended) at one complete group of zero bytes plus a
single trailing byte. -/
theorem c1Witness :
    iter_mth (MTH_HEADER ++ (([List.replicate 20 0] : List (List Nat)).flatten ++ [255])) =
      Except.ok ([List.replicate 20 0].map bytesHex ++ [bytesHex [255]]) ∧
      (bytesHex [255]).length < 40 :=
  c1_trailing_fragment [List.replicate 20 0] [255] (by decide) (by decide) (by decide)

/-- C2: `iter_mth` raises the format error exactly when the first six
bytes of the input differ from `MTH_HEADER`; in particular it errors on
every input shorter than six bytes (the slice `data[0:6]` is then too
short to equal the header), and on a good header it returns the hash
list without error. -/
theorem c2_format_rejection (data : List Nat) :
    ((∃ e, iter_mth data = Except.error e) ↔ data.take 6 ≠ MTH_HEADER) ∧
      (data.length < 6 → ∃ e, iter_mth data = Except.error e) ∧
      (data.take 6 = MTH_HEADER → iter_mth data = Except.ok (iterChunks (data.drop 6))) := by
  have herr : ∀ _ : data.take 6 ≠ MTH_HEADER,
      iter_mth data = Except.error "Invalid index.mth" := fun hne => by
    rw [iter_mth, if_neg hne]
  refine ⟨⟨?_, fun hne => ⟨_, herr hne⟩⟩, ?_, fun heq => by rw [iter_mth, if_pos heq]⟩
  · rintro ⟨e, he⟩ heq
    rw [iter_mth, if_pos heq] at he
    exact Except.noConfusion he
  · intro hlt
    refine ⟨_, herr ?_⟩
    intro heq
    have hlen := congrArg List.length heq
    rw [List.length_take, MTH_HEADER_length] at hlen
    omega

/-- Witness for C2 at the empty input. -/
theorem c2Witness : ∃ e, iter_mth [] = Except.error e :=
  (c2_format_rejection []).2.1 (by decide)

/-- C3: decoding the encoding of any sequence of 20-byte hashes (the
header followed by their concatenation) yields exactly their lowercase
hex strings in order; each such string has 40 characters, all from the
lowercase hex digit set. -/
theorem c3_roundtrip (hashes : List (List Nat))
    (h20 : ∀ h ∈ hashes, h.length = 20) (h256 : ∀ h ∈ hashes, ∀ b ∈ h, b < 256) :
    iter_mth (MTH_HEADER ++ hashes.flatten) = Except.ok (hashes.map bytesHex) ∧
      ∀ h ∈ hashes, (bytesHex h).length = 40 ∧ ∀ c ∈ (bytesHex h).data, c ∈ HEXDIGIT := by
  constructor
  · have hjoin := iterChunks_join hashes [] h20
    rw [List.append_nil, iterChunks_nil, List.append_nil] at hjoin
    rw [iter_mth_header, hjoin]
  · intro h hh
    refine ⟨?_, bytesHex_mem h (h256 h hh)⟩
    rw [bytesHex_length, h20 h hh]

/-- Witness for C3 at the one-hash sequence of twenty `0xab` bytes. -/
theorem c3Witness :
    iter_mth (MTH_HEADER ++ ([List.replicate 20 171] : List (List Nat)).flatten) =
      Except.ok ([List.replicate 20 171].map bytesHex) :=
  (c3_roundtrip [List.replicate 20 171] (by decide) (by decide)).1

/-- C4 counterexample: with deletion enabled, an empty remote index and a
destination whose only entry is a directory named by 40 hex-looking
characters, the deletion step selects that directory: the loop of lines
102-108 checks only the name shape, never `is_file`, so the entry passed
to `os.remove` is a directory and the remove-a-directory error branch is
reachable. -/
theorem c4Counterexample :
    dirName ∈ (runPlan true false [] [dirName]).toDelete ∧
      isDirectoryNamed [⟨dirName, false⟩] dirName = true ∧
      ([⟨dirName, false⟩] : List DirEntry).map DirEntry.name = [dirName] :=
  ⟨by decide, by decide, rfl⟩

/-- C4 (amended): the deletion step applies only the name-shape filter
(length exactly 40 and at least one hex-digit character) to the names
left unmatched in `list_files`; it applies no file-vs-directory type
filter, so membership in the deletion set is fully characterized by the
flag, unmatched-ness and the name shape alone. -/
theorem c4_deletion_filter (delete redownload : Bool) (remote localNames : List String)
    (n : String) :
    n ∈ (runPlan delete redownload remote localNames).toDelete ↔
      (delete = true ∧ n ∈ (runPlan delete redownload remote localNames).remaining ∧
        n.length = 40 ∧ ∃ c ∈ n.data, c ∈ HEXDIGIT) := by
  rw [runPlan_toDelete, runPlan_remaining]
  cases delete with
  | false => simp
  | true =>
    rw [if_pos rfl, List.mem_filter, hexNameFilter_iff]
    constructor
    · rintro ⟨h1, h2, h3⟩
      exact ⟨rfl, h1, h2, h3⟩
    · rintro ⟨-, h1, h2, h3⟩
      exact ⟨h1, h2, h3⟩

/-- C6: for every flag combination, remote hash sequence and (duplicate
free, as `os.listdir` returns it) local listing, no name is both
scheduled for download and selected for deletion: a scheduled hash is
never in the final `list_files`, while every deletion candidate is. -/
theorem c6_disjoint (delete redownload : Bool) (remote localNames : List String)
    (hnd : localNames.Nodup) :
    ∀ n ∈ (runPlan delete redownload remote localNames).toDownload,
      n ∉ (runPlan delete redownload remote localNames).toDelete := by
  intro n hn hdel
  have hinv := processAll_inv redownload remote (initState localNames) hnd
    (fun x hx => absurd hx (List.not_mem_nil x))
  rw [runPlan_toDownload] at hn
  rw [runPlan_toDelete] at hdel
  have hnot := hinv.2 n hn
  cases delete
  · exact absurd hdel (List.not_mem_nil n)
  · rw [if_pos rfl] at hdel
    exact hnot (List.mem_filter.mp hdel).1

/-- Witness for C6: remote `["aa"]` against local `["bb"]` with deletion
enabled; the downloaded hash `"aa"` is not a deletion candidate. -/
theorem c6Witness : "aa" ∉ (runPlan true false ["aa"] ["bb"]).toDelete :=
  c6_disjoint true false ["aa"] ["bb"] (by decide) "aa" (by decide)

/-- Processing a remote sequence that contains `h0` exactly twice,
starting from a duplicate-free `list_files` containing `h0` and with no
download of `h0` recorded yet, with `redownload` off: after the first
occurrence `h0` is out of `list_files` with still no download recorded;
at the end exactly one download of `h0` is recorded and `h0` is not in
`list_files`. -/
theorem processAll_duplicate_core (xs ys zs : List String) (h0 : String) (s0 : SyncState)
    (hx : h0 ∉ xs) (hy : h0 ∉ ys) (hz : h0 ∉ zs)
    (hloc : h0 ∈ s0.listFiles) (hnd : s0.listFiles.Nodup)
    (hcnt0 : s0.toDownload.count h0 = 0) :
    h0 ∉ (processAll false s0 (xs ++ [h0])).listFiles ∧
      (processAll false s0 (xs ++ [h0])).toDownload.count h0 = 0 ∧
      (processAll false s0 (xs ++ h0 :: (ys ++ h0 :: zs))).toDownload.count h0 = 1 ∧
      h0 ∉ (processAll false s0 (xs ++ h0 :: (ys ++ h0 :: zs))).listFiles := by
  obtain ⟨hu1mem, hu1cnt⟩ := processAll_untouched false xs h0 s0 hx
  have h1mem : h0 ∈ (processAll false s0 xs).listFiles := hu1mem.mpr hloc
  have h1nd : (processAll false s0 xs).listFiles.Nodup :=
    (processAll_listFiles_sublist false xs s0).nodup hnd
  have h1cnt : (processAll false s0 xs).toDownload.count h0 = 0 := hu1cnt.trans hcnt0
  have e2 := processHash_mem_ff (processAll false s0 xs) h0 h1mem
  have h2mem : h0 ∉ (processHash false (processAll false s0 xs) h0).listFiles := by
    rw [e2]
    exact fun hm => (h1nd.mem_erase_iff.mp hm).1 rfl
  have h2cnt :
      (processHash false (processAll false s0 xs) h0).toDownload.count h0 = 0 := by
    rw [e2]; exact h1cnt
  have eseg : processAll false s0 (xs ++ [h0]) =
      processHash false (processAll false s0 xs) h0 := by
    rw [processAll_append]; rfl
  obtain ⟨hu3mem, hu3cnt⟩ := processAll_untouched false ys h0
    (processHash false (processAll false s0 xs) h0) hy
  have h3mem : h0 ∉ (processAll false
      (processHash false (processAll false s0 xs) h0) ys).listFiles :=
    fun hm => h2mem (hu3mem.mp hm)
  have h3cnt : (processAll false
      (processHash false (processAll false s0 xs) h0) ys).toDownload.count h0 = 0 :=
    hu3cnt.trans h2cnt
  have e4 := processHash_not_mem false
    (processAll false (processHash false (processAll false s0 xs) h0) ys) h0 h3mem
  have h4mem : h0 ∉ (processHash false
      (processAll false (processHash false (processAll false s0 xs) h0) ys) h0).listFiles := by
    rw [e4]; exact h3mem
  have h4cnt : (processHash false
      (processAll false (processHash false (processAll false s0 xs) h0) ys)
        h0).toDownload.count h0 = 1 := by
    rw [e4]
    show ((processAll false (processHash false (processAll false s0 xs) h0) ys).toDownload
      ++ [h0]).count h0 = 1
    rw [List.count_append, h3cnt]
    simp
  obtain ⟨hu5mem, hu5cnt⟩ := processAll_untouched false zs h0
    (processHash false
      (processAll false (processHash false (processAll false s0 xs) h0) ys) h0) hz
  have etotal : processAll false s0 (xs ++ h0 :: (ys ++ h0 :: zs)) =
      processAll false
        (processHash false
          (processAll false (processHash false (processAll false s0 xs) h0) ys) h0) zs := by
    rw [processAll_append, processAll_cons, processAll_append, processAll_cons]
  refine ⟨by rw [eseg]; exact h2mem, by rw [eseg]; exact h2cnt, ?_, ?_⟩
  · rw [etotal, hu5cnt]; exact h4cnt
  · rw [etotal]
    exact fun hm => h4mem (hu5mem.mp hm)

/-- C7: a remote index containing the same hash twice, with the hash
present in the (duplicate-free) local listing and `redownload` off, is
processed once per occurrence: after the prefix through the first
occurrence the local entry is consumed and no download of the hash is
recorded; at the end of the run the hash has been downloaded exactly
once (by the second, unmatched occurrence), `found_count` counts every
remote occurrence and `download_count` counts the downloads performed. -/
theorem c7_duplicate (delete : Bool) (xs ys zs : List String) (h0 : String)
    (localNames : List String)
    (hx : h0 ∉ xs) (hy : h0 ∉ ys) (hz : h0 ∉ zs)
    (hloc : h0 ∈ localNames) (hnd : localNames.Nodup) :
    (runPlan delete false (xs ++ h0 :: (ys ++ h0 :: zs)) localNames).foundCount =
        (xs ++ h0 :: (ys ++ h0 :: zs)).length ∧
      h0 ∉ (processAll false (initState localNames) (xs ++ [h0])).listFiles ∧
      (processAll false (initState localNames) (xs ++ [h0])).toDownload.count h0 = 0 ∧
      (runPlan delete false (xs ++ h0 :: (ys ++ h0 :: zs)) localNames).toDownload.count h0 = 1 ∧
      (runPlan delete false (xs ++ h0 :: (ys ++ h0 :: zs)) localNames).downloadCount =
        (runPlan delete false (xs ++ h0 :: (ys ++ h0 :: zs)) localNames).toDownload.length ∧
      h0 ∉ (runPlan delete false (xs ++ h0 :: (ys ++ h0 :: zs)) localNames).remaining := by
  obtain ⟨k1, k2, k3, k4⟩ := processAll_duplicate_core xs ys zs h0 (initState localNames)
    hx hy hz hloc hnd rfl
  refine ⟨?_, k1, k2, ?_, ?_, ?_⟩
  · rw [runPlan_foundCount, processAll_foundCount]
    have hz0 : (initState localNames).foundCount = 0 := rfl
    omega
  · rw [runPlan_toDownload]; exact k3
  · rw [runPlan_downloadCount, runPlan_toDownload]
    have hdc := processAll_downloadCount false
      (xs ++ h0 :: (ys ++ h0 :: zs)) (initState localNames)
    have ha0 : (initState localNames).toDownload.length = 0 := rfl
    have hb0 : (initState localNames).downloadCount = 0 := rfl
    omega
  · rw [runPlan_remaining]; exact k4

/-- Witness for C7 at remote `["aa", "aa"]` against local `["aa"]`. -/
theorem c7Witness :
    (runPlan true false (([] : List String) ++ "aa" :: (([] : List String) ++ "aa" :: ([] : List String))) ["aa"]).toDownload.count "aa" = 1 :=
  (c7_duplicate true [] [] [] "aa" ["aa"] (by decide) (by decide) (by decide)
    (by decide) (by decide)).2.2.2.1

/-- C8: with `redownload` on, a remote index `[a]` whose hash is present
locally still downloads `a` (once), while the matching local entry is
consumed: it is neither left in `list_files` nor, with any deletion
flag, selected for deletion. -/
theorem c8_redownload_force (delete : Bool) (a : String) (localNames : List String)
    (ha : a ∈ localNames) (hnd : localNames.Nodup) :
    (runPlan delete true [a] localNames).toDownload = [a] ∧
      (runPlan delete true [a] localNames).downloadCount = 1 ∧
      a ∉ (runPlan delete true [a] localNames).remaining ∧
      a ∉ (runPlan delete true [a] localNames).toDelete := by
  have hstep : processAll true (initState localNames) [a] =
      ⟨localNames.erase a, 1, 1, [a]⟩ := by
    show processHash true (initState localNames) a = _
    rw [processHash_mem_tt (initState localNames) a ha]
    rfl
  have hrem : a ∉ localNames.erase a := fun hmem => (hnd.mem_erase_iff.mp hmem).1 rfl
  refine ⟨?_, ?_, ?_, ?_⟩
  · rw [runPlan_toDownload, hstep]
  · rw [runPlan_downloadCount, hstep]
  · rw [runPlan_remaining, hstep]; exact hrem
  · rw [runPlan_toDelete, hstep]
    cases delete
    · exact List.not_mem_nil a
    · rw [if_pos rfl]
      exact fun hmem => hrem (List.mem_filter.mp hmem).1

/-- Witness for C8 at remote `["aa"]` against local `["aa"]`. -/
theorem c8Witness : (runPlan true true ["aa"] ["aa"]).toDownload = ["aa"] :=
  (c8_redownload_force true "aa" ["aa"] (by decide) (by decide)).1

/-- C5 counterexample: the remote bytes are the valid header followed by
the two-byte fragment `0xab 0xcd`; `iter_mth` yields the short hash
string `"abcd"`.  With the local listing `["abcd"]` (a foreign name: its
length is 4, not 40) and `redownload` on, the loop matches the local
entry and still schedules it for download — so a foreign-named local
entry is placed in the download set, contradicting the claim for this
run. -/
theorem c5Counterexample :
    iter_mth (MTH_HEADER ++ [171, 205]) = Except.ok ["abcd"] ∧
      ("abcd" : String).length ≠ 40 ∧
      "abcd" ∈ (runPlan true true ["abcd"] ["abcd"]).toDownload :=
  ⟨rfl, by decide, by decide⟩

/-- C5 (amended): a name that is not of length exactly 40 or contains no
hex-digit character is never selected for deletion, under any flags and
any remote sequence; and it is never scheduled for download whenever the
remote hash sequence was decoded from a header followed by complete
20-byte groups only (no trailing fragment), since every hash string of
such an index has exactly 40 lowercase hex characters. -/
theorem c5_foreign_preserved (delete redownload : Bool) (remote localNames : List String)
    (groups : List (List Nat)) (n : String)
    (hforeign : n.length ≠ 40 ∨ ∀ c ∈ n.data, c ∉ HEXDIGIT) :
    n ∉ (runPlan delete redownload remote localNames).toDelete ∧
      ((∀ g ∈ groups, g.length = 20 ∧ ∀ b ∈ g, b < 256) →
        iter_mth (MTH_HEADER ++ groups.flatten) = Except.ok remote →
        n ∉ (runPlan delete redownload remote localNames).toDownload) := by
  constructor
  · intro hdel
    rw [runPlan_toDelete] at hdel
    cases delete
    · exact absurd hdel (List.not_mem_nil n)
    · rw [if_pos rfl] at hdel
      have hf := (List.mem_filter.mp hdel).2
      rw [hexNameFilter_iff] at hf
      rcases hforeign with h | h
      · exact h hf.1
      · obtain ⟨c, hc1, hc2⟩ := hf.2
        exact h c hc1 hc2
  · intro hg hdec hdl
    rw [runPlan_toDownload] at hdl
    rcases processAll_toDownload_subset redownload remote (initState localNames) n hdl with
      h1 | h1
    · exact absurd h1 (List.not_mem_nil n)
    · have hjoin := iterChunks_join groups [] (fun g hgm => (hg g hgm).1)
      rw [List.append_nil, iterChunks_nil, List.append_nil] at hjoin
      rw [iter_mth_header, hjoin] at hdec
      have hrem : remote = groups.map bytesHex := (Except.ok.inj hdec).symm
      rw [hrem, List.mem_map] at h1
      obtain ⟨g, hgm, hbg⟩ := h1
      rcases hforeign with h | h
      · refine h ?_
        rw [← hbg, bytesHex_length, (hg g hgm).1]
      · have hlen : (0 : Nat) < n.data.length := by
          have : n.data.length = n.length := rfl
          rw [this, ← hbg, bytesHex_length, (hg g hgm).1]
          omega
        obtain ⟨c, hc⟩ := List.exists_mem_of_length_pos hlen
        refine h c hc ?_
        rw [← hbg] at hc
        exact bytesHex_mem g (hg g hgm).2 c hc

/-- Witness for C5 (amended): the foreign name `"zz"` in the local
listing is untouched by a run against the header-only index. -/
theorem c5Witness :
    "zz" ∉ (runPlan true true [] ["zz"]).toDelete ∧
      "zz" ∉ (runPlan true true [] ["zz"]).toDownload := by
  have h := c5_foreign_preserved true true [] ["zz"] [] "zz" (Or.inl (by decide))
  exact ⟨h.1, h.2 (by decide) rfl⟩

/-- C9: with `generate=false` the bytes written to `index.mth` (lines
122-125) are the fetched index bytes themselves, byte for byte, for
every possible fetched byte string — including one with a trailing
fragment after the last complete hash; no re-encoding of the decoded
structure takes place. -/
theorem c9_remote_fidelity (sha1 : List Nat → List Nat) (entries : List DirEntry)
    (contents : String → List Nat) (mthBytes : List Nat) :
    writtenIndex false sha1 entries contents mthBytes = mthBytes := rfl

/-- C10: with `generate=true` the written index is the exact 6-byte
header followed by a concatenation of complete 20-byte digests, one per
entry surviving the regeneration filter, so its length is `6 + 20*M`;
decoding it raises no error, yields exactly those `M` digests as hash
strings, and every yielded string has the full 40 characters (no short
trailing fragment is ever encountered). -/
theorem c10_generated_wellformed (sha1 : List Nat → List Nat) (entries : List DirEntry)
    (contents : String → List Nat) (mthBytes : List Nat)
    (h20 : ∀ bs, (sha1 bs).length = 20) :
    (writtenIndex true sha1 entries contents mthBytes).length =
        6 + 20 * (entries.filter genEntryFilter).length ∧
      iter_mth (writtenIndex true sha1 entries contents mthBytes) =
        Except.ok (((entries.filter genEntryFilter).map
          (fun e => sha1 (contents e.name))).map bytesHex) ∧
      ∀ s ∈ ((entries.filter genEntryFilter).map (fun e => sha1 (contents e.name))).map bytesHex,
        s.length = 40 := by
  have hw : writtenIndex true sha1 entries contents mthBytes =
      MTH_HEADER ++
        ((entries.filter genEntryFilter).map (fun e => sha1 (contents e.name))).flatten := rfl
  have hg : ∀ g ∈ (entries.filter genEntryFilter).map (fun e => sha1 (contents e.name)),
      g.length = 20 := by
    intro g hgm
    obtain ⟨e, -, rfl⟩ := List.mem_map.mp hgm
    exact h20 _
  refine ⟨?_, ?_, ?_⟩
  · rw [hw, List.length_append, MTH_HEADER_length,
      flatten_const_length 20 _ hg, List.length_map]
  · have hjoin := iterChunks_join _ [] hg
    rw [List.append_nil, iterChunks_nil, List.append_nil] at hjoin
    rw [hw, iter_mth_header, hjoin]
  · intro s hs
    obtain ⟨g, hgm, rfl⟩ := List.mem_map.mp hs
    rw [bytesHex_length, hg g hgm]

/-- Witness for C10 with a constant 20-byte digest function and one
regular file whose name passes the regeneration filter. -/
theorem c10Witness :
    (writtenIndex true (fun _ => List.replicate 20 0) [⟨dirName, true⟩]
        (fun _ => []) []).length =
      6 + 20 * (([⟨dirName, true⟩] : List DirEntry).filter genEntryFilter).length :=
  (c10_generated_wellformed (fun _ => List.replicate 20 0) [⟨dirName, true⟩]
    (fun _ => []) [] (fun _ => by simp)).1

end SyncMedia
